import Mathlib

/-!
Shallow embedding of the tfman decision core: the change-impact resolver
(`lib/ops/change-detector.mjs`), the target validator
(`lib/ops/target-selector.mjs`), the command parser
(`lib/ops/command-parser.mjs`) and the graph builder
(`cli/commands/generate-deps.mjs`), translated from `.github/scripts`.

JS-runtime conventions used throughout the embedding:
* a JS `Set` of strings is a duplicate-free `List String` in insertion order
  (`setInsert` keeps the first occurrence, as `Set.add` does);
* a JS `Map` (or plain object used as a dictionary) is an association list in
  key insertion order (`mapSet` updates an existing key in place and appends a
  fresh key, as `Map.set` does);
* a missing (`undefined`) JSON array field is represented by `[]` and a missing
  string field by `""`: the sources read such fields only through `x || []`
  defaults and truthiness tests, on which these representations agree;
* `Array.prototype.sort` with a consistent comparator is a stable sort
  (guaranteed since ES2019); a stable sort's result is unique for a total
  preorder comparator, so it is modelled by a stable insertion sort;
* external effects (filesystem checks, subprocess output) enter as explicit
  oracle parameters (`fs : String → Bool`, command outcome values).
-/

namespace Tfman

/-- JS `Set.add`: append unless already present (the first insertion keeps its
position). -/
def setInsert (s : List String) (x : String) : List String :=
  if x ∈ s then s else s ++ [x]

/-- Adding many elements to a JS `Set` in order. -/
def insertAll (s : List String) (l : List String) : List String :=
  l.foldl setInsert s

/-- JS `Array.from(new Set(l))`: de-duplicate keeping first occurrences. -/
def jsDedup (l : List String) : List String := insertAll [] l

/-- JS `Map.get` on an insertion-ordered association list. -/
def mapGet : List (String × List String) → String → Option (List String)
  | [], _ => none
  | (k0, v0) :: rest, k => if k0 = k then some v0 else mapGet rest k

/-- JS `Map.set`: update the existing key in place, else append the new key. -/
def mapSet : List (String × List String) → String → List String → List (String × List String)
  | [], k, v => [(k, v)]
  | (k0, v0) :: rest, k, v =>
    if k0 = k then (k0, v) :: rest else (k0, v0) :: mapSet rest k v

/-- JS `s.startsWith(pre)`, via the character lists (kernel-computable,
unlike `String.startsWith`). -/
def strStartsWith (s pre : String) : Bool := pre.toList.isPrefixOf s.toList

/-- Lexicographic comparison of character lists by code point. -/
def charListLe : List Char → List Char → Bool
  | [], _ => true
  | _ :: _, [] => false
  | a :: restA, b :: restB => if a = b then charListLe restA restB else decide (a < b)

/-- JS string comparison `a <= b` (code-unit lexicographic; agrees with
code-point order on the strings handled here). -/
def strLe (a b : String) : Bool := charListLe a.toList b.toList

/-- Split a character list at every character satisfying `p`, keeping empty
pieces, with `cur` the reversed current piece. -/
def splitCharsAux (p : Char → Bool) : List Char → List Char → List (List Char)
  | [], cur => [cur.reverse]
  | c :: rest, cur =>
    if p c then cur.reverse :: splitCharsAux p rest []
    else splitCharsAux p rest (c :: cur)

/-- Split a string at every character satisfying `p` (the behaviour of
`String.split`, kernel-computable). -/
def splitChars (s : String) (p : Char → Bool) : List String :=
  (splitCharsAux p s.toList []).map String.mk

/-- Split at every non-overlapping occurrence of the separator `sep`
(nonempty), scanning left to right; the fuel decreases every step and each
step consumes at least one character. -/
def splitOnListAux (sep : List Char) : Nat → List Char → List (List Char)
  | _, [] => [[]]
  | 0, l => [l]
  | fuel + 1, c :: rest =>
    if sep.isPrefixOf (c :: rest) then
      [] :: splitOnListAux sep fuel ((c :: rest).drop sep.length)
    else
      match splitOnListAux sep fuel rest with
      | [] => [[c]]
      | h :: t => (c :: h) :: t

/-- JS `s.split(sep)` for a nonempty string separator. -/
def jsSplitOn (s sep : String) : List String :=
  (splitOnListAux sep.toList (s.length + 1) s.toList).map String.mk

/-- One step of a stable insertion sort: `x` is placed before the first `y`
with `le x y`, so elements comparing equal keep their original relative
order. -/
def insertStable (le : α → α → Bool) (x : α) : List α → List α
  | [] => [x]
  | y :: ys => if le x y then x :: y :: ys else y :: insertStable le x ys

/-- Stable sort; models JS `Array.prototype.sort` for a total preorder
comparator (the stable sorted result is unique, so the runtime's algorithm
does not matter). -/
def stableSort (le : α → α → Bool) : List α → List α
  | [] => []
  | x :: xs => insertStable le x (stableSort le xs)

/-- JS `arr.sort()` on strings: the default lexicographic comparator (agrees
with `String` order on the ASCII paths handled here). -/
def jsSortStrings (l : List String) : List String :=
  stableSort strLe l

/-- One `dirs` entry of the `.tfdeps.json` snapshot. -/
structure DirEntry where
  path : String
  providers : List String
deriving DecidableEq

/-- One `modules` entry of the `.tfdeps.json` snapshot. -/
structure ModuleEntry where
  source : String
  usedIn : List String
deriving DecidableEq

/-- The decoded `.tfdeps.json` snapshot (`depsData`). -/
structure DepsData where
  dirs : List DirEntry
  modules : List ModuleEntry
deriving DecidableEq

/-- One matrix entry `{path, providers}`: the unit of downstream work. -/
structure MatrixEntry where
  path : String
  providers : List String
deriving DecidableEq

/-! ## change-detector: `calculateExecutionPaths` -/

/-- The `knownRoots` set built from `depsData.dirs` (entries with truthy
`path`). -/
def buildKnownRoots (dirs : List DirEntry) : List String :=
  dirs.foldl (fun acc d => if d.path ≠ "" then setInsert acc d.path else acc) []

/-- The `rootProviders` map built from `depsData.dirs`. -/
def buildRootProviders (dirs : List DirEntry) : List (String × List String) :=
  dirs.foldl (fun acc d => if d.path ≠ "" then mapSet acc d.path d.providers else acc) []

/-- The `moduleUsageMap`: module source → `new Set(usedIn)`, for entries with
truthy `source`. -/
def buildModuleUsage (modules : List ModuleEntry) : List (String × List String) :=
  modules.foldl (fun acc m => if m.source ≠ "" then mapSet acc m.source (jsDedup m.usedIn) else acc) []

/-- The `sortedModules` list: the map's keys sorted descending by length (stable). -/
def sortedModuleKeys (usage : List (String × List String)) : List String :=
  stableSort (fun a b => decide (b.length ≤ a.length)) (usage.map Prod.fst)

/-- The two accumulating sets of the per-file loop. -/
structure ScanState where
  affectedRoots : List String
  changedModules : List String
deriving DecidableEq

/-- Body of the per-file loop: first root whose `path + "/"` prefixes the file
wins and short-circuits module matching; otherwise the first (longest-first)
module match is recorded. -/
def scanStep (knownRoots sortedMods : List String) (st : ScanState) (file : String) : ScanState :=
  match knownRoots.find? (fun root => strStartsWith file (root ++ "/")) with
  | some r => { st with affectedRoots := setInsert st.affectedRoots r }
  | none =>
    match sortedMods.find? (fun m => strStartsWith file (m ++ "/")) with
    | some m => { st with changedModules := setInsert st.changedModules m }
    | none => st

/-- The per-file loop over `changedFiles`. -/
def scanFiles (knownRoots sortedMods : List String) (files : List String) : ScanState :=
  files.foldl (scanStep knownRoots sortedMods) ⟨[], []⟩

/-- One changed module's contribution: add each of its consumers to the
affected set (`if (!affectedRoots.has(consumer)) affectedRoots.add(consumer)`),
or nothing when the map misses. -/
def consumerStep (usage : List (String × List String)) (acc : List String)
    (m : String) : List String :=
  match mapGet usage m with
  | some consumers => insertAll acc consumers
  | none => acc

/-- Step `// Resolve module dependencies`: add every consumer of every changed
module to the affected set. -/
def addConsumers (usage : List (String × List String)) (affected : List String)
    (mods : List String) : List String :=
  mods.foldl (consumerStep usage) affected

/-- The function `calculateExecutionPaths(changedFiles, depsData)` from
`lib/ops/change-detector.mjs`. -/
def calculateExecutionPaths (changedFiles : List String) (depsData : DepsData) : List MatrixEntry :=
  let knownRoots := buildKnownRoots depsData.dirs
  let rootProviders := buildRootProviders depsData.dirs
  let moduleUsage := buildModuleUsage depsData.modules
  let sortedMods := sortedModuleKeys moduleUsage
  let st := scanFiles knownRoots sortedMods changedFiles
  let affected := addConsumers moduleUsage st.affectedRoots st.changedModules
  affected.map (fun p => ⟨p, (mapGet rootProviders p).getD []⟩)

/-- The root the per-file scan attributes file `f` to (first match in graph
order), if any. -/
def rootMatch (deps : DepsData) (f : String) : Option String :=
  (buildKnownRoots deps.dirs).find? (fun root => strStartsWith f (root ++ "/"))

/-- The module the per-file scan attributes file `f` to (first match in
descending-length order), if any; only consulted when `rootMatch` misses. -/
def moduleMatch (deps : DepsData) (f : String) : Option String :=
  (sortedModuleKeys (buildModuleUsage deps.modules)).find? (fun m => strStartsWith f (m ++ "/"))

/-! ## target-selector: `resolveTargets` and `selectTargets` -/

/-- JS `t.replace(/\/$/, '')`: strip one trailing slash, if present. -/
def stripTrailingSlash (t : String) : String :=
  if t.toList.getLast? = some '/' then String.mk t.toList.dropLast else t

/-- The `dirsMap` built from `depsData.dirs` (entries with truthy `path`). -/
def buildDirsMap (dirs : List DirEntry) : List (String × List String) :=
  dirs.foldl (fun acc d => if d.path ≠ "" then mapSet acc d.path d.providers else acc) []

/-- Body of the per-target loop of `resolveTargets`: push a hit on the exact
key, else on the key with one trailing slash stripped, else record the
failed target. -/
def resolveStep (dirsMap : List (String × List String))
    (acc : List MatrixEntry × List String) (t : String) : List MatrixEntry × List String :=
  match mapGet dirsMap t with
  | some provs => (acc.1 ++ [⟨t, provs⟩], acc.2)
  | none =>
    match mapGet dirsMap (stripTrailingSlash t) with
    | some provs => (acc.1 ++ [⟨stripTrailingSlash t, provs⟩], acc.2)
    | none => (acc.1, acc.2 ++ [t])

/-- The function `resolveTargets(targets, depsData)` from `lib/ops/target-selector.mjs`:
per-target exact lookup, retry once with one trailing slash stripped, else
record the miss. Returns `(includeList, failedTargets)`. -/
def resolveTargets (targets : List String) (depsData : DepsData) :
    List MatrixEntry × List String :=
  let dirsMap := buildDirsMap depsData.dirs
  targets.foldl (resolveStep dirsMap) ([], [])

/-- Characterisation helper: the outcome `resolveTargets` produces for one
target (a hit entry, or `none` for a miss). -/
def resolveOne (dirsMap : List (String × List String)) (t : String) : Option MatrixEntry :=
  match mapGet dirsMap t with
  | some provs => some ⟨t, provs⟩
  | none =>
    match mapGet dirsMap (stripTrailingSlash t) with
    | some provs => some ⟨stripTrailingSlash t, provs⟩
    | none => none

/-- JS `\s` whitespace, restricted to the characters that can occur here. -/
def isJsWs (c : Char) : Bool :=
  c = ' ' || c = '\t' || c = '\n' || c = '\r' || c = '\u000B' || c = '\u000C' ||
  c = '\u00A0' || c = '\uFEFF'

/-- JS `targetsInput.split(/\s+/).filter(Boolean)`. -/
def splitTargetsInput (s : String) : List String :=
  (splitChars s isJsWs).filter (fun t => t ≠ "")

/-- The function `selectTargets(targetsInput)` from `lib/ops/target-selector.mjs`, with the
snapshot already loaded (`depsData`); a JS `throw` is `.error`. -/
def selectTargets (targetsInput : String) (depsData : DepsData) :
    Except String (List MatrixEntry) :=
  if targetsInput = "" then .error "Missing required argument: targets"
  else
    let targets := splitTargetsInput targetsInput
    let res := resolveTargets targets depsData
    if res.2.length > 0 then
      .error ("The following targets were not found in .tfdeps.json: " ++
        String.intercalate ", " res.2)
    else .ok res.1

/-! ## command-parser: `parseCommand` -/

/-- A single-quote character, written via its code point. -/
def squote : Char := Char.ofNat 39

/-- JS `String.prototype.trim`: strip whitespace from both ends. -/
def jsTrim (s : String) : String :=
  let l := s.toList.dropWhile isJsWs
  String.mk ((l.reverse.dropWhile isJsWs).reverse)

/-- JS `trimmed.split(/\r?\n/)[0]`: the text before the first newline, with a
carriage return immediately preceding that newline removed; a body without a
newline is kept whole (a trailing bare carriage return stays, as in JS). -/
def firstLogicalLine (s : String) : String :=
  let cs := s.toList
  let pre := cs.takeWhile (fun c => c ≠ '\n')
  if pre.length < cs.length then
    if pre.getLast? = some '\r' then String.mk pre.dropLast else String.mk pre
  else String.mk pre

/-- One `regex.exec` step of the quote-aware splitter
`/"([^"]+)"|('{...}')|([^\s]+)/g`: at the earliest non-whitespace position the
alternatives are tried in order — a double-quoted span with nonempty content,
a single-quoted span with nonempty content, else a maximal bare run of
non-whitespace characters (which is also the fallback for an unmatched or
empty quote). The fuel decreases every step; each step consumes at least one
character, so `length + 1` fuel is always enough. -/
def jsTokenizeAux : Nat → List Char → List String
  | 0, _ => []
  | _ + 1, [] => []
  | fuel + 1, c :: rest =>
    if isJsWs c then jsTokenizeAux fuel rest
    else
      let quoted : Option (List Char × List Char) :=
        if c = '"' then
          let content := rest.takeWhile (fun d => d ≠ '"')
          if content.length ≠ 0 ∧ content.length < rest.length then
            some (content, rest.drop (content.length + 1))
          else none
        else if c = squote then
          let content := rest.takeWhile (fun d => d ≠ squote)
          if content.length ≠ 0 ∧ content.length < rest.length then
            some (content, rest.drop (content.length + 1))
          else none
        else none
      match quoted with
      | some (content, rem) => String.mk content :: jsTokenizeAux fuel rem
      | none =>
        let bare := (c :: rest).takeWhile (fun d => !isJsWs d)
        String.mk bare :: jsTokenizeAux fuel ((c :: rest).drop bare.length)

/-- The full quote-aware tokenizer applied to one line. -/
def jsTokenize (s : String) : List String :=
  jsTokenizeAux (s.length + 1) s.toList

/-- The `command` field of a parsed command. -/
inductive CmdAction where
  | apply
  | plan
  | help
  | error
deriving DecidableEq

/-- The parser's result object; `message` is absent (`none`) for plain
`apply`/`plan` results. -/
structure ParsedCommand where
  command : CmdAction
  targets : List String
  message : Option String
deriving DecidableEq

/-- The function `getHelpMessage()` from `lib/ops/command-parser.mjs` (template literal
followed by `.trim()`). -/
def getHelpMessage : String :=
  jsTrim ("\n### :robot: Terraform Bot Usage\n\n- `$terraform apply [targets...]`: Run `terraform apply`\n- `$terraform plan [targets...]`: Run `terraform plan`\n- `$terraform help`: Show this help message.\n\n**Targets:**\n- List of directories to apply changes to.\n- If **no targets** are provided, the bot detects changes based on the PR diff.\n\n**Examples:**\n- `$terraform apply`: Apply all changes in the PR.\n- `$terraform plan dev/frontend`: Plan changes in `dev/frontend`.\n- `$terraform apply dev/backend dev/db`: Apply for multiple paths.\n")

/-- A character allowed in a target token: `/^[\w\-\/]+$/` class member. -/
def isTargetChar (c : Char) : Bool :=
  c.isAlpha || c.isDigit || c = '_' || c = '-' || c = '/'

/-- JS `/^[\w\-\/]+$/.test(arg)`: nonempty and all characters allowed. -/
def validTarget (s : String) : Bool :=
  !s.isEmpty && s.toList.all isTargetChar

/-- The error message produced for the first invalid target token. -/
def invalidTargetMessage (arg : String) : String :=
  "Invalid target path provided: \"" ++ arg ++
    "\". Only alphanumeric characters, \"-\", and \"/\" are allowed."

/-- The target-validation loop of `parseCommand`: the first non-conforming
token aborts with its error message; otherwise all tokens are collected in
order. -/
def validateTargets : List String → Except String (List String)
  | [] => .ok []
  | a :: rest =>
    if validTarget a then
      match validateTargets rest with
      | .ok ts => .ok (a :: ts)
      | .error msg => .error msg
    else .error (invalidTargetMessage a)

/-- The argument vector `parseCommand` tokenizes from `commentBody`. -/
def parseArgs (commentBody : String) : List String :=
  jsTokenize (firstLogicalLine (jsTrim commentBody))

/-- The function `parseCommand(commentBody)` from `lib/ops/command-parser.mjs`; `none`
models JS `null` ("not a command"). -/
def parseCommand (commentBody : String) : Option ParsedCommand :=
  if commentBody = "" then none
  else if (parseArgs commentBody).length < 2 then none
  else if (parseArgs commentBody).headD "" ≠ "$terraform" then none
  else if (parseArgs commentBody).getD 1 "" = "apply" then
    match validateTargets ((parseArgs commentBody).drop 2) with
    | .error msg => some ⟨.error, [], some msg⟩
    | .ok ts => some ⟨.apply, ts, none⟩
  else if (parseArgs commentBody).getD 1 "" = "plan" then
    match validateTargets ((parseArgs commentBody).drop 2) with
    | .error msg => some ⟨.error, [], some msg⟩
    | .ok ts => some ⟨.plan, ts, none⟩
  else if (parseArgs commentBody).getD 1 "" = "help" then some ⟨.help, [], some getHelpMessage⟩
  else none

/-! ## POSIX path arithmetic (Node `path.resolve` / `path.relative`),
as used by `generate-deps.mjs` on absolute workspace paths -/

/-- Split a path on slashes. -/
def splitSlash (s : String) : List String := splitChars s (fun c => c = '/')

/-- POSIX normalisation of an absolute path: drop empty and `.` segments,
let `..` pop the previous segment (or vanish at the root). -/
def normalizeAbs (p : String) : String :=
  let segs := (splitSlash p).filter (fun s => s != "" && s != ".")
  let stack := segs.foldl (fun (st : List String) seg =>
    if seg = ".." then st.dropLast else st ++ [seg]) []
  "/" ++ String.intercalate "/" stack

/-- Whether a POSIX path is absolute. -/
def isAbsolutePath (p : String) : Bool := strStartsWith p "/"

/-- Node `path.resolve(base, p)` for an absolute `base` (as in every call site
here: `resolve(workspaceRoot, …)` and `resolve(rootAbs, …)`). -/
def resolvePath (base p : String) : String :=
  if isAbsolutePath p then normalizeAbs p else normalizeAbs (base ++ "/" ++ p)

/-- Node `path.join(a, b)` for an absolute `a`. -/
def pathJoin (a b : String) : String := normalizeAbs (a ++ "/" ++ b)

/-- Length of the common segment prefix of two segment lists. -/
def commonPrefixLen : List String → List String → Nat
  | a :: as, b :: bs => if a = b then commonPrefixLen as bs + 1 else 0
  | _, _ => 0

/-- Node `path.relative(fromP, toP)` for absolute arguments: resolve both,
drop the common segment prefix, go up once per remaining `fromP` segment and
then down the remaining `toP` segments. -/
def relativePath (fromP toP : String) : String :=
  let f := (splitSlash (normalizeAbs fromP)).filter (fun s => s != "")
  let t := (splitSlash (normalizeAbs toP)).filter (fun s => s != "")
  let k := commonPrefixLen f t
  String.intercalate "/" (List.replicate (f.length - k) ".." ++ t.drop k)

/-! ## generate-deps: `resolveLocalModule`, `analyzeRoot` and the `run`
aggregation. External subprocess output enters as oracle values. -/

/-- JS truthiness of an optional string: `null`/`undefined`/`""` are falsy. -/
def optTruthy : Option String → Option String
  | some s => if s = "" then none else some s
  | none => none

/-- Whether `pat` occurs as a contiguous run inside the list. -/
def hasRunAux (pat : List Char) : List Char → Bool
  | [] => pat.isEmpty
  | c :: rest => pat.isPrefixOf (c :: rest) || hasRunAux pat rest

/-- JS `s.includes(sub)`. -/
def hasSubstr (s sub : String) : Bool := hasRunAux sub.toList s.toList

/-- The `candidatePath` computed by `resolveLocalModule`: a `git::` source
naming this repository resolves its `//`-subpath against the workspace root;
otherwise a truthy tool-reported `Dir`, or a `./`-style source string,
resolves against the root's own directory. -/
def moduleCandidate (rootAbs source dirPath workspaceRoot : String)
    (repoName : Option String) : Option String :=
  let gitCand : Option String :=
    match optTruthy repoName with
    | some rn =>
      if strStartsWith source "git::" && hasSubstr source "//" && hasSubstr source rn then
        let parts := jsSplitOn source "//"
        let pathPart := (jsSplitOn (parts.getLastD "") "?").headD ""
        some (resolvePath workspaceRoot pathPart)
      else none
    | none => none
  match gitCand with
  | some c => some c
  | none =>
    if dirPath ≠ "" then some (resolvePath rootAbs dirPath)
    else if strStartsWith source "." || strStartsWith source ".." then
      some (resolvePath rootAbs source)
    else none

/-- The function `resolveLocalModule(rootAbs, source, dirPath, workspaceRoot, repoName)`
from `cli/commands/generate-deps.mjs` (the `lib/ops/target-selector.mjs` copy
is line-for-line identical); `fs` is the on-disk existence oracle. -/
def resolveLocalModule (fs : String → Bool) (rootAbs source dirPath workspaceRoot : String)
    (repoName : Option String) : Option String :=
  match moduleCandidate rootAbs source dirPath workspaceRoot repoName with
  | some candidatePath =>
    if fs candidatePath then
      let rel := relativePath workspaceRoot candidatePath
      if rel != "" && !(strStartsWith rel "..") then some rel else none
    else none
  | none => none

/-- One entry of the `terraform modules -json` output, with its optional
`Source`/`source` and `Dir`/`dir` fields. -/
structure RawModule where
  sourceUpper : Option String
  sourceLower : Option String
  dirUpper : Option String
  dirLower : Option String

/-- Outcome of the `terraform modules -json` step, as seen by
`extractModules`: the subprocess threw, `JSON.parse` threw, or a module list
was decoded (`data.Modules || data.modules || []`). -/
inductive ModulesCmd where
  | invokeError (msg : String)
  | decodeError (msg : String) (stdoutPrefix : String)
  | parsed (mods : List RawModule)

/-- Outcome of the `terraform providers schema -json` step: the single
`try` covers both the subprocess and `JSON.parse`, else the keys of
`data.provider_schemas || {}` were obtained. -/
inductive ProvidersCmd where
  | invokeError (msg : String)
  | parsed (schemaKeys : List String)

/-- JS `m.Source || m.source` (skip the module when falsy). -/
def rawSource (m : RawModule) : Option String :=
  match optTruthy m.sourceUpper with
  | some s => some s
  | none => optTruthy m.sourceLower

/-- JS `m.Dir || m.dir || ''`. -/
def rawDir (m : RawModule) : String :=
  (match optTruthy m.dirUpper with
   | some d => some d
   | none => optTruthy m.dirLower).getD ""

/-- The function `extractModules` from `cli/commands/generate-deps.mjs`: returns the
sorted resolved local module set and the diagnostic lines pushed to `logs`.
Every failure path returns `[]` with a log line — it does not throw. -/
def extractModules (fs : String → Bool) (rootAbs workspaceRoot : String)
    (repoName : Option String) (cmd : ModulesCmd) : List String × List String :=
  match cmd with
  | .invokeError msg => ([], ["❌ 'terraform modules' failed: " ++ msg])
  | .decodeError msg stdoutPrefix =>
    ([], ["❌ JSON decode error (modules): " ++ msg ++ "\nStdout: " ++ stdoutPrefix ++ "..."])
  | .parsed mods =>
    let modulesSet := mods.foldl (fun acc m =>
      match rawSource m with
      | none => acc
      | some src =>
        match resolveLocalModule fs rootAbs src (rawDir m) workspaceRoot repoName with
        | some p => setInsert acc p
        | none => acc) []
    (jsSortStrings modulesSet, [])

/-- The function `extractProviders`: sorted schema keys, or `[]` plus a log line. It does
not throw either. -/
def extractProviders (cmd : ProvidersCmd) : List String × List String :=
  match cmd with
  | .invokeError msg => ([], ["❌ Failed to get providers schema: " ++ msg])
  | .parsed keys => (jsSortStrings keys, [])

/-- The external-world outcomes one root's analysis can observe:
`terraform init` (consulted only when `.terraform` is absent; `some msg`
means it threw) and the two extraction subprocesses. -/
structure RootEnv where
  initError : Option String
  modulesCmd : ModulesCmd
  providersCmd : ProvidersCmd

/-- The per-root `result` object of `analyzeRoot`. -/
structure AnalysisResult where
  root : String
  status : String
  logs : List String
  modules : List String
  providers : List String

/-- The successful tail of `analyzeRoot` (extraction runs; the two tasks'
log pushes interleave nondeterministically, modelled as modules-then
-providers, which no theorem below depends on). -/
def analyzeRootBody (fs : String → Bool) (env : RootEnv) (rootRelPath rootAbs workspaceRoot : String)
    (repoName : Option String) : AnalysisResult :=
  let m := extractModules fs rootAbs workspaceRoot repoName env.modulesCmd
  let p := extractProviders env.providersCmd
  { root := rootRelPath, status := "success", logs := m.2 ++ p.2,
    modules := m.1, providers := p.1 }

/-- The function `analyzeRoot(rootRelPath, workspaceRoot, repoName)`: status becomes
`"error"` exactly when `.terraform` is absent and `terraform init` throws;
every other failure mode stays `"success"` with diagnostics in `logs`. -/
def analyzeRoot (fs : String → Bool) (env : RootEnv) (rootRelPath workspaceRoot : String)
    (repoName : Option String) : AnalysisResult :=
  let rootAbs := resolvePath workspaceRoot rootRelPath
  let dotTerraform := pathJoin rootAbs ".terraform"
  if fs dotTerraform then analyzeRootBody fs env rootRelPath rootAbs workspaceRoot repoName
  else
    match env.initError with
    | some msg =>
      { root := rootRelPath, status := "error",
        logs := ["❌ Initialization failed: " ++ msg], modules := [], providers := [] }
    | none => analyzeRootBody fs env rootRelPath rootAbs workspaceRoot repoName

/-- Accumulator of the aggregation loop in `run`. -/
structure RunAcc where
  moduleUsage : List (String × List String)
  failedRoots : List String
  rootObjects : List DirEntry

/-- One iteration of the aggregation loop: a successful root contributes its
dirs entry and joins each of its modules' consumer lists; a failed root only
joins `failedRoots`. -/
def runFold (acc : RunAcc) (res : AnalysisResult) : RunAcc :=
  if res.status = "success" then
    { acc with
      rootObjects := acc.rootObjects ++ [⟨res.root, res.providers⟩],
      moduleUsage := res.modules.foldl (fun mu md =>
        match mapGet mu md with
        | some l => mapSet mu md (l ++ [res.root])
        | none => mapSet mu md [res.root]) acc.moduleUsage }
  else { acc with failedRoots := acc.failedRoots ++ [res.root] }

/-- The pure aggregation tail of `run` in `cli/commands/generate-deps.mjs`:
sort results (`localeCompare`, which agrees with `String` order on ASCII
paths), fold, and either exit(1) writing nothing (`none`) when any root
failed, or assemble the snapshot object that is written (`some`). -/
def runAggregate (results : List AnalysisResult) : Option DepsData :=
  let sorted := stableSort (fun a b => strLe a.root b.root) results
  let acc := sorted.foldl runFold ⟨[], [], []⟩
  if acc.failedRoots.length > 0 then none
  else some ⟨acc.rootObjects,
    (jsSortStrings (acc.moduleUsage.map Prod.fst)).map (fun md =>
      ⟨md, jsSortStrings ((mapGet acc.moduleUsage md).getD [])⟩)⟩

/-- The parallel fan-out: one `analyzeRoot` task per discovered root, each a
function of its own environment only. -/
def buildResults (fs : String → Bool) (envOf : String → RootEnv) (roots : List String)
    (workspaceRoot : String) (repoName : Option String) : List AnalysisResult :=
  roots.map (fun r => analyzeRoot fs (envOf r) r workspaceRoot repoName)

/-! ## Helper lemmas on the JS collection models -/

/-- Membership after a JS `Set.add`. -/
theorem mem_setInsert {s : List String} {x y : String} :
    y ∈ setInsert s x ↔ y ∈ s ∨ y = x := by
  unfold setInsert
  split
  · rename_i hx
    constructor
    · exact Or.inl
    · rintro (h | rfl) <;> assumption
  · simp [List.mem_append]

/-- JS `Set.add` keeps the no-duplicates invariant. -/
theorem nodup_setInsert {s : List String} (h : s.Nodup) (x : String) :
    (setInsert s x).Nodup := by
  unfold setInsert
  split
  · exact h
  · rename_i hx
    exact h.append (List.nodup_singleton x) (by simpa using hx)

/-- Membership after adding many elements to a JS `Set`. -/
theorem mem_insertAll {s l : List String} {y : String} :
    y ∈ insertAll s l ↔ y ∈ s ∨ y ∈ l := by
  induction l generalizing s with
  | nil => simp [insertAll]
  | cons a l ih =>
    simp only [insertAll, List.foldl_cons] at *
    rw [ih, mem_setInsert]
    simp only [List.mem_cons]
    tauto

/-- Bulk `Set.add` keeps the no-duplicates invariant. -/
theorem nodup_insertAll {s : List String} (h : s.Nodup) (l : List String) :
    (insertAll s l).Nodup := by
  induction l generalizing s with
  | nil => exact h
  | cons a l ih =>
    simp only [insertAll, List.foldl_cons] at *
    exact ih (nodup_setInsert h a)

/-- De-duplication produces a duplicate-free list. -/
theorem nodup_jsDedup (l : List String) : (jsDedup l).Nodup :=
  nodup_insertAll List.nodup_nil l

/-- Membership is preserved by de-duplication. -/
theorem mem_jsDedup {l : List String} {y : String} : y ∈ jsDedup l ↔ y ∈ l := by
  unfold jsDedup
  rw [mem_insertAll]
  simp

/-- Membership in a stable-insertion step. -/
theorem mem_insertStable {le : α → α → Bool} {x y : α} {l : List α} :
    y ∈ insertStable le x l ↔ y = x ∨ y ∈ l := by
  induction l with
  | nil => simp [insertStable]
  | cons a l ih =>
    unfold insertStable
    split
    · simp
    · simp only [List.mem_cons, ih]
      tauto

/-- The stable sort neither adds nor removes elements. -/
theorem mem_stableSort {le : α → α → Bool} {y : α} {l : List α} :
    y ∈ stableSort le l ↔ y ∈ l := by
  induction l with
  | nil => simp [stableSort]
  | cons a l ih =>
    unfold stableSort
    rw [mem_insertStable, ih]
    simp

/-- Reading a key after a JS `Map.set`. -/
theorem mapGet_mapSet (m : List (String × List String)) (k k2 : String) (v : List String) :
    mapGet (mapSet m k v) k2 = if k = k2 then some v else mapGet m k2 := by
  induction m with
  | nil => simp [mapSet, mapGet]
  | cons p rest ih =>
    obtain ⟨k0, v0⟩ := p
    simp only [mapSet]
    split
    · rename_i h0
      subst h0
      simp only [mapGet]
      split <;> simp_all
    · rename_i h0
      simp only [mapGet]
      split
      · rename_i h2
        subst h2
        simp [mapGet, Ne.symm h0]
      · rw [ih]

/-- Every value stored by `buildModuleUsage` is a de-duplicated `usedIn`
list, hence duplicate-free. -/
theorem buildModuleUsage_value_nodup {modules : List ModuleEntry} {M : String}
    {cs : List String} (h : mapGet (buildModuleUsage modules) M = some cs) :
    cs.Nodup := by
  suffices H : ∀ (ms : List ModuleEntry) (acc : List (String × List String)),
      (∀ k v, mapGet acc k = some v → v.Nodup) →
      ∀ k v, mapGet (ms.foldl (fun acc m =>
        if m.source ≠ "" then mapSet acc m.source (jsDedup m.usedIn) else acc) acc) k = some v →
        v.Nodup by
    exact H modules [] (by intro k v hkv; simp [mapGet] at hkv) M cs h
  intro ms
  induction ms with
  | nil => intro acc hacc k v hkv; exact hacc k v hkv
  | cons m rest ih =>
    intro acc hacc k v hkv
    simp only [List.foldl_cons] at hkv
    refine ih _ ?_ k v hkv
    intro k2 v2 hk2
    by_cases hs : m.source ≠ ""
    · rw [if_pos hs, mapGet_mapSet] at hk2
      split at hk2
      · cases hk2; exact nodup_jsDedup _
      · exact hacc k2 v2 hk2
    · rw [if_neg hs] at hk2
      exact hacc k2 v2 hk2

/-! ## Characterisation of the per-file scan of `calculateExecutionPaths` -/

/-- Affected-roots membership after scanning a file list: a root is present
iff it was present before, or some scanned file's first root match is that
root. -/
theorem scan_affected_mem (kr sm : List String) (files : List String) (st : ScanState)
    (y : String) :
    y ∈ (files.foldl (scanStep kr sm) st).affectedRoots ↔
      y ∈ st.affectedRoots ∨
        ∃ f ∈ files, kr.find? (fun r => strStartsWith f (r ++ "/")) = some y := by
  induction files generalizing st with
  | nil => simp
  | cons f fs ih =>
    simp only [List.foldl_cons, ih, List.exists_mem_cons_iff]
    cases hf : kr.find? (fun r => strStartsWith f (r ++ "/")) with
    | none =>
      cases hm : sm.find? (fun md => strStartsWith f (md ++ "/")) with
      | none => simp only [scanStep, hf, hm]; tauto
      | some m0 => simp only [scanStep, hf, hm]; tauto
    | some r =>
      simp only [scanStep, hf, mem_setInsert, Option.some.injEq, eq_comm]
      tauto

/-- Changed-modules membership after scanning a file list: a module is present
iff it was present before, or some scanned file missed every root and its
first module match is that module. -/
theorem scan_modules_mem (kr sm : List String) (files : List String) (st : ScanState)
    (m : String) :
    m ∈ (files.foldl (scanStep kr sm) st).changedModules ↔
      m ∈ st.changedModules ∨
        ∃ f ∈ files, kr.find? (fun r => strStartsWith f (r ++ "/")) = none ∧
          sm.find? (fun md => strStartsWith f (md ++ "/")) = some m := by
  induction files generalizing st with
  | nil => simp
  | cons f fs ih =>
    simp only [List.foldl_cons, ih, List.exists_mem_cons_iff]
    cases hf : kr.find? (fun r => strStartsWith f (r ++ "/")) with
    | some r => simp only [scanStep, hf]; tauto
    | none =>
      cases hm : sm.find? (fun md => strStartsWith f (md ++ "/")) with
      | none => simp only [scanStep, hf, hm]; tauto
      | some m0 =>
        simp only [scanStep, hf, hm, mem_setInsert, Option.some.injEq, true_and, eq_comm]
        tauto

/-- The scan keeps both accumulated sets duplicate-free. -/
theorem scan_nodup (kr sm : List String) (files : List String) (st : ScanState)
    (h1 : st.affectedRoots.Nodup) (h2 : st.changedModules.Nodup) :
    (files.foldl (scanStep kr sm) st).affectedRoots.Nodup ∧
      (files.foldl (scanStep kr sm) st).changedModules.Nodup := by
  induction files generalizing st with
  | nil => exact ⟨h1, h2⟩
  | cons f fs ih =>
    simp only [List.foldl_cons]
    apply ih
    · unfold scanStep
      cases kr.find? (fun r => strStartsWith f (r ++ "/")) with
      | some r => exact nodup_setInsert h1 r
      | none =>
        cases sm.find? (fun md => strStartsWith f (md ++ "/")) with
        | some m => exact h1
        | none => exact h1
    · unfold scanStep
      cases kr.find? (fun r => strStartsWith f (r ++ "/")) with
      | some r => exact h2
      | none =>
        cases sm.find? (fun md => strStartsWith f (md ++ "/")) with
        | some m => exact nodup_setInsert h2 m
        | none => exact h2

/-- Membership after resolving changed modules to their consumers. -/
theorem addConsumers_mem (usage : List (String × List String)) (affected mods : List String)
    (y : String) :
    y ∈ addConsumers usage affected mods ↔
      y ∈ affected ∨ ∃ m ∈ mods, ∃ cs, mapGet usage m = some cs ∧ y ∈ cs := by
  induction mods generalizing affected with
  | nil => simp [addConsumers]
  | cons m ms ih =>
    simp only [addConsumers, List.foldl_cons, List.exists_mem_cons_iff] at *
    rw [ih]
    cases hm : mapGet usage m with
    | none => simp [consumerStep, hm]
    | some cs =>
      simp only [consumerStep, hm, mem_insertAll, Option.some.injEq]
      constructor
      · rintro ((h | h) | h)
        · tauto
        · exact Or.inr (Or.inl ⟨cs, rfl, h⟩)
        · tauto
      · rintro (h | (⟨cs2, hcs2, hy⟩ | h))
        · tauto
        · cases hcs2; tauto
        · tauto

/-- Consumer resolution keeps the affected set duplicate-free. -/
theorem addConsumers_nodup (usage : List (String × List String)) (affected mods : List String)
    (h : affected.Nodup) : (addConsumers usage affected mods).Nodup := by
  induction mods generalizing affected with
  | nil => exact h
  | cons m ms ih =>
    simp only [addConsumers, List.foldl_cons] at *
    apply ih
    unfold consumerStep
    cases mapGet usage m with
    | some cs => exact nodup_insertAll h cs
    | none => exact h

/-- The output paths of `calculateExecutionPaths` are exactly the affected
set computed by the scan plus consumer resolution. -/
theorem execPaths_map_path (files : List String) (deps : DepsData) :
    (calculateExecutionPaths files deps).map MatrixEntry.path =
      addConsumers (buildModuleUsage deps.modules)
        (scanFiles (buildKnownRoots deps.dirs)
          (sortedModuleKeys (buildModuleUsage deps.modules)) files).affectedRoots
        (scanFiles (buildKnownRoots deps.dirs)
          (sortedModuleKeys (buildModuleUsage deps.modules)) files).changedModules := by
  simp only [calculateExecutionPaths, List.map_map]
  exact List.map_id _

/-- Master membership characterisation of the resolver output: a path is
emitted iff some changed file root-matches it, or some changed file misses
all roots and module-matches a module whose stored consumer set contains
it. -/
theorem mem_execPaths (files : List String) (deps : DepsData) (p : String) :
    p ∈ (calculateExecutionPaths files deps).map MatrixEntry.path ↔
      (∃ f ∈ files, rootMatch deps f = some p) ∨
      (∃ m, (∃ f ∈ files, rootMatch deps f = none ∧ moduleMatch deps f = some m) ∧
        ∃ cs, mapGet (buildModuleUsage deps.modules) m = some cs ∧ p ∈ cs) := by
  rw [execPaths_map_path, addConsumers_mem]
  unfold scanFiles
  rw [scan_affected_mem]
  simp only [List.not_mem_nil, false_or, ScanState.affectedRoots, ScanState.changedModules]
  constructor
  · rintro (h | ⟨m, hm, hcs⟩)
    · exact Or.inl h
    · rw [scan_modules_mem] at hm
      simp only [List.not_mem_nil, false_or] at hm
      exact Or.inr ⟨m, hm, hcs⟩
  · rintro (h | ⟨m, hm, hcs⟩)
    · exact Or.inl h
    · refine Or.inr ⟨m, ?_, hcs⟩
      rw [scan_modules_mem]
      simp only [List.not_mem_nil, false_or]
      exact hm

/-- The resolver never emits a path twice. -/
theorem nodup_execPaths (files : List String) (deps : DepsData) :
    ((calculateExecutionPaths files deps).map MatrixEntry.path).Nodup := by
  rw [execPaths_map_path]
  apply addConsumers_nodup
  exact (scan_nodup _ _ _ ⟨[], []⟩ List.nodup_nil List.nodup_nil).1

/-- The per-target loop, from any accumulator, appends exactly one outcome
per input target in input order. -/
theorem resolveTargets_foldl (dirsMap : List (String × List String)) (ts : List String)
    (acc : List MatrixEntry × List String) :
    ts.foldl (resolveStep dirsMap) acc =
      (acc.1 ++ ts.filterMap (resolveOne dirsMap),
       acc.2 ++ ts.filter (fun t => (resolveOne dirsMap t).isNone)) := by
  induction ts generalizing acc with
  | nil => simp
  | cons t ts ih =>
    simp only [List.foldl_cons, List.filterMap_cons, List.filter_cons]
    cases h1 : mapGet dirsMap t with
    | some provs =>
      simp [resolveStep, resolveOne, h1, ih]
    | none =>
      cases h2 : mapGet dirsMap (stripTrailingSlash t) with
      | some provs => simp [resolveStep, resolveOne, h1, h2, ih]
      | none => simp [resolveStep, resolveOne, h1, h2, ih]

/-! ## Claim theorems -/

/-- C9: `resolveTargets` processes its input element-wise with no
de-duplication: the result is exactly the per-target hits (in input order)
paired with the per-target misses (in input order), the lengths of the two
output lists sum to the input length, and a target listed twice that is
present in the graph yields two identical matrix entries. -/
theorem resolveTargets_elementwise (targets : List String) (deps : DepsData) :
    resolveTargets targets deps =
      (targets.filterMap (resolveOne (buildDirsMap deps.dirs)),
       targets.filter (fun t => (resolveOne (buildDirsMap deps.dirs) t).isNone)) ∧
    (resolveTargets targets deps).1.length + (resolveTargets targets deps).2.length =
      targets.length ∧
    ∀ t e, resolveOne (buildDirsMap deps.dirs) t = some e →
      resolveTargets [t, t] deps = ([e, e], []) := by
  have hmain : ∀ (ts : List String), resolveTargets ts deps =
      (ts.filterMap (resolveOne (buildDirsMap deps.dirs)),
       ts.filter (fun t => (resolveOne (buildDirsMap deps.dirs) t).isNone)) := by
    intro ts
    unfold resolveTargets
    rw [resolveTargets_foldl]
    simp
  have hlen : ∀ (ts : List String),
      (ts.filterMap (resolveOne (buildDirsMap deps.dirs))).length +
        (ts.filter (fun t => (resolveOne (buildDirsMap deps.dirs) t).isNone)).length =
        ts.length := by
    intro ts
    induction ts with
    | nil => simp
    | cons a l ih =>
      cases h : resolveOne (buildDirsMap deps.dirs) a <;>
        simp [List.filterMap_cons, List.filter_cons, h] <;> omega
  refine ⟨hmain targets, ?_, ?_⟩
  · rw [hmain targets]
    exact hlen targets
  · intro t e he
    rw [hmain [t, t]]
    simp [List.filterMap_cons, List.filter_cons, he]

/-- C9 witness: a duplicated, present target yields two identical entries
and no failures. -/
theorem resolveTargets_elementwise_witness :
    resolveTargets ["app1", "app1"] ⟨[⟨"app1", ["aws"]⟩], []⟩ =
      ([⟨"app1", ["aws"]⟩, ⟨"app1", ["aws"]⟩], []) :=
  (resolveTargets_elementwise ["app1", "app1"] ⟨[⟨"app1", ["aws"]⟩], []⟩).2.2
    "app1" ⟨"app1", ["aws"]⟩ rfl

/-- C8 counterexample: in a graph that also contains a root literally named
`app2/`, the exact lookup on `app2/` hits first, so `resolveTargets` does
not strip the slash and the two calls return different entries — the claim
as stated fails for this graph. -/
theorem resolveTargets_slash_counterexample :
    resolveTargets ["app2/"] ⟨[⟨"app2", ["google"]⟩, ⟨"app2/", ["weird"]⟩], []⟩ =
      ([⟨"app2/", ["weird"]⟩], []) ∧
    resolveTargets ["app2"] ⟨[⟨"app2", ["google"]⟩, ⟨"app2/", ["weird"]⟩], []⟩ =
      ([⟨"app2", ["google"]⟩], []) := by
  exact ⟨rfl, rfl⟩

/-- C8 (amended): in every graph whose dirs map contains the key `app2` and
no key `app2/`, `resolveTargets (["app2/"])` misses the exact lookup, retries
once with the trailing separator stripped, and returns the same single entry
as `resolveTargets (["app2"])`, recorded under the stripped path. -/
theorem resolveTargets_trailing_slash (deps : DepsData) (provs : List String)
    (h1 : mapGet (buildDirsMap deps.dirs) "app2" = some provs)
    (h2 : mapGet (buildDirsMap deps.dirs) "app2/" = none) :
    resolveTargets ["app2/"] deps = ([⟨"app2", provs⟩], []) ∧
    resolveTargets ["app2"] deps = ([⟨"app2", provs⟩], []) := by
  have hs : stripTrailingSlash "app2/" = "app2" := rfl
  constructor
  · simp [resolveTargets, resolveStep, h1, h2, hs]
  · simp [resolveTargets, resolveStep, h1]

/-- C8 witness: the trailing-slash equivalence at a concrete graph. -/
theorem resolveTargets_trailing_slash_witness :
    resolveTargets ["app2/"] ⟨[⟨"app2", ["google"]⟩], []⟩ = ([⟨"app2", ["google"]⟩], []) ∧
    resolveTargets ["app2"] ⟨[⟨"app2", ["google"]⟩], []⟩ = ([⟨"app2", ["google"]⟩], []) :=
  resolveTargets_trailing_slash ⟨[⟨"app2", ["google"]⟩], []⟩ ["google"] rfl rfl

/-- C6 counterexample: `selectTargets` with the empty (falsy) targets input
throws the missing-argument error even though its parsed target list is
empty, so no input target is unresolved — failure is not equivalent to the
existence of an unresolved target. -/
theorem selectTargets_empty_counterexample :
    selectTargets "" ⟨[⟨"app1", ["aws"]⟩], []⟩ =
      .error "Missing required argument: targets" ∧
    (resolveTargets (splitTargetsInput "") ⟨[⟨"app1", ["aws"]⟩], []⟩).2 = [] := by
  exact ⟨rfl, rfl⟩

/-- C6 (amended): for every non-empty targets input, `selectTargets` succeeds
with the full include list when no parsed target is unresolved, and otherwise
fails with the single error message that names every unresolved target
(joined with a comma); a partial include list is never returned. -/
theorem selectTargets_all_or_nothing (targetsInput : String) (deps : DepsData)
    (h : targetsInput ≠ "") :
    ((resolveTargets (splitTargetsInput targetsInput) deps).2 = [] →
      selectTargets targetsInput deps =
        .ok (resolveTargets (splitTargetsInput targetsInput) deps).1) ∧
    ((resolveTargets (splitTargetsInput targetsInput) deps).2 ≠ [] →
      selectTargets targetsInput deps =
        .error ("The following targets were not found in .tfdeps.json: " ++
          String.intercalate ", "
            (resolveTargets (splitTargetsInput targetsInput) deps).2)) := by
  constructor
  · intro hf
    simp [selectTargets, h, hf]
  · intro hf
    have hpos : 0 < (resolveTargets (splitTargetsInput targetsInput) deps).2.length :=
      List.length_pos.mpr hf
    simp only [selectTargets, if_neg h]
    rw [if_pos hpos]

/-- C6 witness: one resolvable and two unresolvable targets produce the
single error naming both misses, in input order. -/
theorem selectTargets_all_or_nothing_witness :
    selectTargets "app1 missing1 missing2" ⟨[⟨"app1", ["aws"]⟩], []⟩ =
      .error "The following targets were not found in .tfdeps.json: missing1, missing2" :=
  (selectTargets_all_or_nothing "app1 missing1 missing2" ⟨[⟨"app1", ["aws"]⟩], []⟩
    (by decide)).2 (by decide)

/-- C2 counterexample: with graph roots listed as `b` then `a` and changed
files `b/f` then `a/f`, the output comes back in discovery order `[b, a]`,
not in the lexicographically sorted order `[a, b]` — `calculateExecutionPaths`
never sorts its result. -/
theorem execPaths_unsorted_counterexample :
    (calculateExecutionPaths ["b/f", "a/f"] ⟨[⟨"b", []⟩, ⟨"a", []⟩], []⟩).map MatrixEntry.path
      = ["b", "a"] ∧
    jsSortStrings ["b", "a"] = ["a", "b"] ∧ (["b", "a"] : List String) ≠ ["a", "b"] := by
  exact ⟨rfl, rfl, by decide⟩

/-- C2 (amended): the list returned by `calculateExecutionPaths` contains
each affected root exactly once, and which paths appear is a function of the
changed-file set alone (membership is invariant under permutation of the
changed-file list); the list itself, however, is emitted in first-discovery
order, not sorted by path. -/
theorem execPaths_nodup_stable_membership (deps : DepsData) (files files2 : List String)
    (hperm : files.Perm files2) :
    ((calculateExecutionPaths files deps).map MatrixEntry.path).Nodup ∧
    ∀ p, p ∈ (calculateExecutionPaths files deps).map MatrixEntry.path ↔
         p ∈ (calculateExecutionPaths files2 deps).map MatrixEntry.path := by
  refine ⟨nodup_execPaths files deps, fun p => ?_⟩
  have hm : ∀ f : String, f ∈ files ↔ f ∈ files2 := fun f => hperm.mem_iff
  simp only [mem_execPaths, hm]

/-- C2 witness: the affected set is unchanged when the changed-file list is
reversed. -/
theorem execPaths_nodup_stable_membership_witness :
    ((calculateExecutionPaths ["a/x", "b/y"] ⟨[⟨"a", []⟩, ⟨"b", []⟩], []⟩).map
      MatrixEntry.path).Nodup ∧
    ∀ p, p ∈ (calculateExecutionPaths ["a/x", "b/y"] ⟨[⟨"a", []⟩, ⟨"b", []⟩], []⟩).map
          MatrixEntry.path ↔
        p ∈ (calculateExecutionPaths ["b/y", "a/x"] ⟨[⟨"a", []⟩, ⟨"b", []⟩], []⟩).map
          MatrixEntry.path :=
  execPaths_nodup_stable_membership ⟨[⟨"a", []⟩, ⟨"b", []⟩], []⟩ ["a/x", "b/y"]
    ["b/y", "a/x"] (by decide)

/-- C3 counterexample: with nested roots `a` and `a/b`, the changed file
`a/b/x.tf` starts with the known root path `a/b` followed by `/`, yet the
output is `[a]` only — the root `a/b` is not marked affected, because the
first matching root in graph order wins. -/
theorem execPaths_nested_root_counterexample :
    strStartsWith "a/b/x.tf" ("a/b" ++ "/") = true ∧
    "a/b" ∈ buildKnownRoots [⟨"a", []⟩, ⟨"a/b", []⟩] ∧
    (calculateExecutionPaths ["a/b/x.tf"] ⟨[⟨"a", []⟩, ⟨"a/b", []⟩], []⟩).map MatrixEntry.path
      = ["a"] := by
  exact ⟨rfl, by decide, rfl⟩

/-- C3 (amended): a changed file whose first root match (in graph order) is
`r` marks `r` affected and is not considered for module matching — its scan
step only inserts `r` into the affected set and leaves the changed-module set
untouched — and every root appears at most once in the output; with nested
roots the first matching root in graph order is the one marked, so `r` is
the unique matching root whenever roots do not nest. -/
theorem execPaths_root_precedence (deps : DepsData) (files : List String) (f r : String)
    (hf : f ∈ files) (hr : rootMatch deps f = some r) :
    r ∈ (calculateExecutionPaths files deps).map MatrixEntry.path ∧
    ((calculateExecutionPaths files deps).map MatrixEntry.path).Nodup ∧
    ∀ st, scanStep (buildKnownRoots deps.dirs)
        (sortedModuleKeys (buildModuleUsage deps.modules)) st f =
      { st with affectedRoots := setInsert st.affectedRoots r } := by
  refine ⟨?_, nodup_execPaths files deps, ?_⟩
  · rw [mem_execPaths]
    exact Or.inl ⟨f, hf, hr⟩
  · intro st
    unfold rootMatch at hr
    simp only [scanStep, hr]

/-- C3 witness: a direct root change is attributed to that root. -/
theorem execPaths_root_precedence_witness :
    "app1" ∈ (calculateExecutionPaths ["app1/main.tf", "modules/m1/x.tf"]
      ⟨[⟨"app1", ["aws"]⟩], [⟨"modules/m1", ["app1"]⟩]⟩).map MatrixEntry.path :=
  (execPaths_root_precedence ⟨[⟨"app1", ["aws"]⟩], [⟨"modules/m1", ["app1"]⟩]⟩
    ["app1/main.tf", "modules/m1/x.tf"] "app1/main.tf" "app1" (by decide) (by decide)).1

/-- C4: when module `M` is stored with consumer set `consumers`, at least one
changed file maps to `M`, and every changed file either maps to `M` or root-
matches one of `M`'s consumers, the output is exactly the consumer roots,
each exactly once (a permutation of the stored consumer set) — regardless of
how many changed files map to `M` and of consumers also matched directly. -/
theorem execPaths_module_consumers (deps : DepsData) (files : List String) (M : String)
    (consumers : List String)
    (hM : mapGet (buildModuleUsage deps.modules) M = some consumers)
    (hex : ∃ f ∈ files, rootMatch deps f = none ∧ moduleMatch deps f = some M)
    (hall : ∀ f ∈ files, (rootMatch deps f = none ∧ moduleMatch deps f = some M) ∨
      ∃ c ∈ consumers, rootMatch deps f = some c) :
    ((calculateExecutionPaths files deps).map MatrixEntry.path).Perm consumers := by
  rw [List.perm_ext_iff_of_nodup (nodup_execPaths files deps)
    (buildModuleUsage_value_nodup hM)]
  intro p
  rw [mem_execPaths]
  constructor
  · rintro (⟨f, hf, hroot⟩ | ⟨m, ⟨f, hf, hnone, hmod⟩, cs, hcs, hp⟩)
    · rcases hall f hf with ⟨hn, _⟩ | ⟨c, hcmem, hc⟩
      · rw [hroot] at hn
        cases hn
      · rw [hroot] at hc
        injection hc with h
        exact h ▸ hcmem
    · rcases hall f hf with ⟨_, hm2⟩ | ⟨c, _, hc⟩
      · rw [hmod] at hm2
        injection hm2 with h
        subst h
        rw [hM] at hcs
        injection hcs with h2
        exact h2 ▸ hp
      · rw [hnone] at hc
        cases hc
  · intro hp
    obtain ⟨f, hf, hnone, hmod⟩ := hex
    exact Or.inr ⟨M, ⟨f, hf, hnone, hmod⟩, consumers, hM, hp⟩

/-- C4 witness: the spec scenario — a module used by two roots, one changed
file under it — yields exactly those two roots. -/
theorem execPaths_module_consumers_witness :
    ((calculateExecutionPaths ["modules/m1/main.tf", "modules/m1/outputs.tf", "app1/main.tf"]
      ⟨[⟨"app1", ["aws"]⟩, ⟨"app2", ["google"]⟩],
        [⟨"modules/m1", ["app1", "app2"]⟩]⟩).map MatrixEntry.path).Perm
      ["app1", "app2"] :=
  execPaths_module_consumers
    ⟨[⟨"app1", ["aws"]⟩, ⟨"app2", ["google"]⟩], [⟨"modules/m1", ["app1", "app2"]⟩]⟩
    ["modules/m1/main.tf", "modules/m1/outputs.tf", "app1/main.tf"]
    "modules/m1" ["app1", "app2"] (by decide)
    ⟨"modules/m1/main.tf", by decide, by decide, by decide⟩ (by decide)

/-- C10: attribution is directory-boundary-safe — every emitted entry is
witnessed by a changed file that starts with the root's path plus `/`, or
with a stored module source plus `/` whose consumer set contains the root; a
changed-file set in which no file has such a slash-terminated prefix (in
particular files equal to a root or module path, or sharing only a string
prefix with one) produces the empty output. -/
theorem execPaths_boundary_safe (deps : DepsData) (files : List String) :
    (∀ e ∈ calculateExecutionPaths files deps, ∃ f ∈ files,
      strStartsWith f (e.path ++ "/") = true ∨
      ∃ m cs, mapGet (buildModuleUsage deps.modules) m = some cs ∧ e.path ∈ cs ∧
        strStartsWith f (m ++ "/") = true) ∧
    ((∀ f ∈ files, (∀ r ∈ buildKnownRoots deps.dirs, strStartsWith f (r ++ "/") = false) ∧
      ∀ m ∈ (buildModuleUsage deps.modules).map Prod.fst, strStartsWith f (m ++ "/") = false) →
      calculateExecutionPaths files deps = []) := by
  constructor
  · intro e he
    have hp : e.path ∈ (calculateExecutionPaths files deps).map MatrixEntry.path :=
      List.mem_map.mpr ⟨e, he, rfl⟩
    rw [mem_execPaths] at hp
    rcases hp with ⟨f, hf, hroot⟩ | ⟨m, ⟨f, hf, _, hmod⟩, cs, hcs, hpcs⟩
    · unfold rootMatch at hroot
      have h1 := List.find?_some hroot
      exact ⟨f, hf, Or.inl h1⟩
    · unfold moduleMatch at hmod
      have h1 := List.find?_some hmod
      exact ⟨f, hf, Or.inr ⟨m, cs, hcs, hpcs, h1⟩⟩
  · intro H
    rw [← List.map_eq_nil_iff (f := MatrixEntry.path)]
    rw [List.eq_nil_iff_forall_not_mem]
    intro p hp
    rw [mem_execPaths] at hp
    rcases hp with ⟨f, hf, hroot⟩ | ⟨m, ⟨f, hf, _, hmod⟩, _, _, _⟩
    · unfold rootMatch at hroot
      have hmem := List.mem_of_find?_eq_some hroot
      have := (H f hf).1 p hmem
      rw [List.find?_some hroot] at this
      cases this
    · unfold moduleMatch at hmod
      have hmem : m ∈ sortedModuleKeys (buildModuleUsage deps.modules) :=
        List.mem_of_find?_eq_some hmod
      rw [sortedModuleKeys, mem_stableSort] at hmem
      have := (H f hf).2 m hmem
      rw [List.find?_some hmod] at this
      cases this

/-- C10 witness: a sibling-prefix file (`app10/main.tf` against root `app1`),
a file equal to a root path, and a file equal to a module path mark nothing
affected. -/
theorem execPaths_boundary_safe_witness :
    calculateExecutionPaths ["app10/main.tf", "app1", "modules/m1"]
      ⟨[⟨"app1", ["aws"]⟩], [⟨"modules/m1", ["app1"]⟩]⟩ = [] :=
  (execPaths_boundary_safe ⟨[⟨"app1", ["aws"]⟩], [⟨"modules/m1", ["app1"]⟩]⟩
    ["app10/main.tf", "app1", "modules/m1"]).2 (by decide)

/-- The target-validation loop rejects with the first invalid token's
message. -/
theorem validateTargets_error_of_find (l : List String) (tok : String)
    (h : l.find? (fun t => !validTarget t) = some tok) :
    validateTargets l = .error (invalidTargetMessage tok) := by
  induction l with
  | nil => cases h
  | cons a rest ih =>
    by_cases hv : validTarget a = true
    · have hfa : (!validTarget a) = false := by simp [hv]
      simp only [List.find?_cons, hfa] at h
      simp only [validateTargets, if_pos hv, ih h]
    · have hfa : (!validTarget a) = true := by simp [hv]
      simp only [List.find?_cons, hfa] at h
      injection h with h2
      subst h2
      simp only [validateTargets, if_neg hv]

/-- C5: for every comment whose tokenized first line starts with the trigger
token and a recognized `apply`/`plan` action, if any remaining token fails
the restricted character class, `parseCommand` aborts the whole command: it
returns the `error` action, an empty target list (never a partial list of the
valid tokens) and the message naming the first non-conforming token. -/
theorem parseCommand_error_atomic (body tok : String)
    (hne : body ≠ "")
    (hlen : 2 ≤ (parseArgs body).length)
    (hhead : (parseArgs body).headD "" = "$terraform")
    (hcmd : (parseArgs body).getD 1 "" = "apply" ∨ (parseArgs body).getD 1 "" = "plan")
    (hbad : ((parseArgs body).drop 2).find? (fun t => !validTarget t) = some tok) :
    parseCommand body = some ⟨.error, [], some (invalidTargetMessage tok)⟩ := by
  have herr := validateTargets_error_of_find ((parseArgs body).drop 2) tok hbad
  have h2 : ¬ ((parseArgs body).length < 2) := by omega
  have hh : ¬ ((parseArgs body).headD "" ≠ "$terraform") := by
    rw [hhead]
    exact fun hcon => hcon rfl
  unfold parseCommand
  rw [if_neg hne, if_neg h2, if_neg hh]
  rcases hcmd with hc | hc
  · rw [if_pos hc, herr]
  · have hnotapply : ¬ ((parseArgs body).getD 1 "" = "apply") := by
      rw [hc]
      decide
    rw [if_neg hnotapply, if_pos hc, herr]

/-- C5 witness: a valid token before and after the bad one are both dropped —
the result carries the `error` action, no targets, and the message naming the
first invalid token. -/
theorem parseCommand_error_atomic_witness :
    parseCommand "$terraform apply dev/app bad;token prod/app" =
      some ⟨.error, [], some (invalidTargetMessage "bad;token")⟩ :=
  parseCommand_error_atomic "$terraform apply dev/app bad;token prod/app" "bad;token"
    (by decide) (by decide) (by decide) (Or.inl (by decide)) (by decide)

/-- C7: `resolveLocalModule` returns a workspace-relative path only when its
resolved candidate exists on disk (`fs`) and that path is the candidate's
workspace-relative form, nonempty and not beginning with `..`; dually, for
every module source whose candidate resolves outside the workspace root
(relative form empty or beginning with `..`, e.g. via `..` escaping), it
returns `null`, so the escaping path is never propagated into the graph. -/
theorem resolveLocalModule_inside_workspace (fs : String → Bool)
    (rootAbs source dirPath workspaceRoot : String) (repoName : Option String) :
    (∀ r, resolveLocalModule fs rootAbs source dirPath workspaceRoot repoName = some r →
      ∃ c, moduleCandidate rootAbs source dirPath workspaceRoot repoName = some c ∧
        fs c = true ∧ r = relativePath workspaceRoot c ∧ r ≠ "" ∧
        strStartsWith r ".." = false) ∧
    (∀ c, moduleCandidate rootAbs source dirPath workspaceRoot repoName = some c →
      (relativePath workspaceRoot c = "" ∨
        strStartsWith (relativePath workspaceRoot c) ".." = true) →
      resolveLocalModule fs rootAbs source dirPath workspaceRoot repoName = none) := by
  constructor
  · intro r hr
    cases hc : moduleCandidate rootAbs source dirPath workspaceRoot repoName with
    | none =>
      simp only [resolveLocalModule, hc] at hr
      exact Option.noConfusion hr
    | some c =>
      simp only [resolveLocalModule, hc] at hr
      by_cases hfs : fs c
      · rw [if_pos hfs] at hr
        by_cases hrel : (relativePath workspaceRoot c != "" &&
            !(strStartsWith (relativePath workspaceRoot c) "..")) = true
        · rw [if_pos hrel] at hr
          injection hr with h
          subst h
          simp only [Bool.and_eq_true, bne_iff_ne, ne_eq, Bool.not_eq_true'] at hrel
          exact ⟨c, rfl, hfs, rfl, hrel.1, hrel.2⟩
        · rw [if_neg hrel] at hr; cases hr
      · rw [if_neg hfs] at hr; cases hr
  · intro c hc hout
    simp only [resolveLocalModule, hc]
    by_cases hfs : fs c
    · rw [if_pos hfs]
      have hfalse : (relativePath workspaceRoot c != "" &&
          !(strStartsWith (relativePath workspaceRoot c) "..")) = false := by
        rcases hout with h | h <;> simp [h]
      rw [hfalse]
      simp
    · rw [if_neg hfs]

/-- C7 witness: a `..`-escaping source resolves to `/etc`, whose
workspace-relative form begins with `..`, and is discarded even though the
path exists on disk. -/
theorem resolveLocalModule_inside_workspace_witness :
    resolveLocalModule (fun _ => true) "/ws/app1" "../../etc" "" "/ws" none = none :=
  (resolveLocalModule_inside_workspace (fun _ => true) "/ws/app1" "../../etc" "" "/ws"
    none).2 "/etc" (by decide) (Or.inr (by decide))

/-- The aggregation loop collects exactly the non-`success` roots, in order,
as `failedRoots`. -/
theorem runFold_failed (l : List AnalysisResult) (acc : RunAcc) :
    (l.foldl runFold acc).failedRoots =
      acc.failedRoots ++ (l.filter (fun r => r.status != "success")).map AnalysisResult.root := by
  induction l generalizing acc with
  | nil => simp
  | cons a rest ih =>
    simp only [List.foldl_cons, List.filter_cons]
    by_cases hs : a.status = "success"
    · have hb : (a.status != "success") = false := by simp [hs]
      rw [hb]
      simp [ih, runFold, hs]
    · have hb : (a.status != "success") = true := by simp [hs]
      rw [hb]
      simp [ih, runFold, hs, List.append_assoc]

/-- C1 counterexample: a root whose `terraform modules` output is malformed
(a JSON decode error) is still reported with status `success` — the failure
only adds a diagnostic log line — and the aggregation still produces a
snapshot (`isSome`), so the Builder does not fail closed on malformed tool
output, contrary to the claim. -/
theorem builder_malformed_output_counterexample :
    (analyzeRoot (fun _ => true)
      ⟨none, .decodeError "Unexpected token" "not json", .parsed ["aws"]⟩
      "app1" "/ws" none).status = "success" ∧
    (runAggregate [analyzeRoot (fun _ => true)
      ⟨none, .decodeError "Unexpected token" "not json", .parsed ["aws"]⟩
      "app1" "/ws" none]).isSome = true := by
  exact ⟨rfl, rfl⟩

/-- C1 (amended): a root's analysis is marked failed (status `error`) exactly
when its `.terraform` directory is absent and `terraform init` throws; tool
invocation failure or malformed tool output during extraction leaves the root
successful (diagnostics only). Each root's result is a function of its own
environment alone (isolation), and the aggregation writes no snapshot exactly
when some root's status is not `success`. -/
theorem builder_fail_closed_init_only :
    (∀ (fs : String → Bool) (env : RootEnv) (root ws : String) (rn : Option String),
      (analyzeRoot fs env root ws rn).status = "error" ↔
        (fs (pathJoin (resolvePath ws root) ".terraform") = false ∧ env.initError.isSome)) ∧
    (∀ results : List AnalysisResult,
      runAggregate results = none ↔ ∃ res ∈ results, res.status ≠ "success") ∧
    (∀ (fs : String → Bool) (envOf : String → RootEnv) (roots : List String)
      (ws : String) (rn : Option String) (i : Nat) (h : i < roots.length),
      (buildResults fs envOf roots ws rn)[i]? =
        some (analyzeRoot fs (envOf (roots.get ⟨i, h⟩)) (roots.get ⟨i, h⟩) ws rn)) := by
  refine ⟨?_, ?_, ?_⟩
  · intro fs env root ws rn
    unfold analyzeRoot
    by_cases hfs : fs (pathJoin (resolvePath ws root) ".terraform")
    · rw [if_pos hfs]
      simp [analyzeRootBody, hfs]
    · rw [if_neg hfs]
      cases hinit : env.initError with
      | some msg => simp [hfs, hinit]
      | none => simp [analyzeRootBody, hfs, hinit]
  · intro results
    simp only [runAggregate]
    rw [runFold_failed]
    constructor
    · intro hnone
      by_cases hlen : 0 < ((([] : List String)) ++
          ((stableSort (fun a b => strLe a.root b.root) results).filter
            (fun r => r.status != "success")).map AnalysisResult.root).length
      · simp only [List.nil_append, List.length_map] at hlen
        obtain ⟨res, hres⟩ := List.exists_mem_of_length_pos hlen
        rw [List.mem_filter] at hres
        exact ⟨res, mem_stableSort.mp hres.1, by simpa using hres.2⟩
      · rw [if_neg hlen] at hnone
        cases hnone
    · rintro ⟨res, hres, hstat⟩
      have hmem : res ∈ (stableSort (fun a b => strLe a.root b.root) results).filter
          (fun r => r.status != "success") := by
        rw [List.mem_filter]
        exact ⟨mem_stableSort.mpr hres, by simpa using hstat⟩
      have hlen : 0 < ((([] : List String)) ++
          ((stableSort (fun a b => strLe a.root b.root) results).filter
            (fun r => r.status != "success")).map AnalysisResult.root).length := by
        simp only [List.nil_append, List.length_map]
        exact List.length_pos.mpr (List.ne_nil_of_mem hmem)
      rw [if_pos hlen]
  · intro fs envOf roots ws rn i h
    unfold buildResults
    rw [List.getElem?_map]
    rw [List.getElem?_eq_getElem h]
    simp [List.get_eq_getElem]

/-- C1 witness: a single root marked failed (init failure) makes the
aggregation write nothing. -/
theorem builder_fail_closed_init_only_witness :
    runAggregate [⟨"app1", "error", ["❌ Initialization failed: boom"], [], []⟩] = none :=
  (builder_fail_closed_init_only.2.1
    [⟨"app1", "error", ["❌ Initialization failed: boom"], [], []⟩]).mpr
    ⟨⟨"app1", "error", ["❌ Initialization failed: boom"], [], []⟩, by simp, by decide⟩

end Tfman
